import Mathlib

/-!
Verification of the rtos_logger repository: a shallow embedding in Lean 4 of
the logger's input FIFO, its text-formatting routines and its drain loop,
together with theorems settling the specification's claims.

Sources embedded here:
 * `src/unnamed/part_002` (the latest revision of `log.c`): `log_fifo_put`,
   `log_fifo_get`, `log_fifo_reset`, `process_decimal`, `process_hexadecimal`,
   `_log_var`, `_log_str`, `_log_char`, `_log_array`, `_log_flush`.
 * `src/Src/logger.c` (first revision): the `bool`-returning `log_fifo_put`,
   and (third revision) the per-width signed-decimal flush cases.
 * `src/Src/log.c` (second revision): `set_color` and the colored `log_flush`.

Modelling conventions:
 * C bytes / `char` values are `Nat` (the numeric byte value); emitted text is
   `List Nat` of byte values.
 * The FIFO buffer (a C array of `LOG_INPUT_FIFO_N_ELEM` records) is a total
   function `Nat → log_fifo_item_t`; all reachable states only ever index it
   below the capacity (proved as an invariant).
 * The FIFO capacity `LOG_INPUT_FIFO_N_ELEM` is a user-configurable macro in
   the headers (128 or 256 across revisions); it is kept as a parameter `cap`,
   with the `static_assert` power-of-two requirement as a hypothesis.
 * C `while` loops become recursive functions.  A loop whose variant is not a
   structural argument carries an explicit fuel argument; the fuel used at
   every call site is large enough that the fueled function agrees with the C
   loop for every input that can reach it (noted at each definition).
 * Machine integers are `Nat` with explicit `% 2 ^ 32` (or `% 256`, `% 16`)
   where C overflow / truncation matters; signed casts go through a
   two's-complement reading `toSigned`.
-/

/-- The `enum log_data_type` used by `src/unnamed/part_002` (its header is a
later revision of `src/Inc/logger.h`, where `_LOG_INT_DEC_1/2/4` collapsed to
one `_LOG_INT_DEC` and `_LOG_HEX_1/2/4` to one `_LOG_HEX`, the operand width
being carried in the item's `nBytes` field, as `part_002` reads it). -/
inductive log_data_type where
  | _LOG_STRING
  | _LOG_UINT_DEC
  | _LOG_INT_DEC
  | _LOG_HEX
  | _LOG_CHAR
  | _LOG_MSG_START
  | _LOG_MSG_STOP
  deriving DecidableEq, Repr

open log_data_type

/-- `struct log_fifo_item_s` of `src/unnamed/part_002`.  In C the payload is a
pair of anonymous unions (`uData`/`sData`/`str`/`chr[4]` and
`strLen`/`nBytes`/`{nChars, msgSymbol}`); they are split into separate fields
here.  Every producer/consumer pair in the source writes and reads the same
union member for a given `type` tag, so no code path embedded here depends on
the aliasing.  `sData` is recovered from `uData` by a two's-complement
reading; a string pointer is modelled by the byte sequence it references,
with `none` standing for the NULL pointer. -/
structure log_fifo_item_t where
  uData : Nat := 0
  str : Option (List Nat) := none
  chr : List Nat := [0, 0, 0, 0]
  strLen : Nat := 0
  nBytes : Nat := 0
  nChars : Nat := 0
  msgSymbol : Nat := 0
  type : log_data_type
  deriving DecidableEq, Repr

/-- `struct log_fifo_s`: the circular buffer control block. -/
structure log_fifo_t where
  buffer : Nat → log_fifo_item_t
  wrIdx : Nat
  rdIdx : Nat
  nItems : Nat

/-- `log_fifo_put` of `src/unnamed/part_002` (lines 75–90): insert if
`nItems < LOG_ARRAY_N_ELEM(buffer)`, write at `wrIdx`, advance `wrIdx` with
the `&= cap - 1` mask, bump `nItems`; otherwise do nothing (the item is
dropped, no value is returned). -/
def log_fifo_put (cap : Nat) (pItem : log_fifo_item_t) (pFifo : log_fifo_t) :
    log_fifo_t :=
  if pFifo.nItems < cap then
    { buffer := fun i => if i = pFifo.wrIdx then pItem else pFifo.buffer i
      wrIdx := (pFifo.wrIdx + 1) &&& (cap - 1)
      rdIdx := pFifo.rdIdx
      nItems := pFifo.nItems + 1 }
  else
    pFifo

/-- `log_fifo_get` of `src/unnamed/part_002` (lines 101–119): if `nItems` is
non-zero, copy out the item at `rdIdx`, advance `rdIdx` with the mask,
decrement `nItems` and report `true`; else report `false`.  The C out-param
plus `bool` result is modelled as an `Option` paired with the new state. -/
def log_fifo_get (cap : Nat) (pFifo : log_fifo_t) :
    Option log_fifo_item_t × log_fifo_t :=
  if pFifo.nItems ≠ 0 then
    (some (pFifo.buffer pFifo.rdIdx),
      { pFifo with
        rdIdx := (pFifo.rdIdx + 1) &&& (cap - 1)
        nItems := pFifo.nItems - 1 })
  else
    (none, pFifo)

/-- `log_fifo_reset` of `src/unnamed/part_002` (lines 127–132): zero the two
indices and the item counter (the buffer itself is not cleared). -/
def log_fifo_reset (pFifo : log_fifo_t) : log_fifo_t :=
  { pFifo with rdIdx := 0, wrIdx := 0, nItems := 0 }

/-- Sequence of `log_fifo_put` calls, one per list element, left to right. -/
def log_fifo_putList (cap : Nat) (items : List log_fifo_item_t)
    (pFifo : log_fifo_t) : log_fifo_t :=
  items.foldl (fun f x => log_fifo_put cap x f) pFifo

/-- `n` successive `log_fifo_get` calls, collecting each call's result. -/
def log_fifo_getN (cap : Nat) : Nat → log_fifo_t →
    List (Option log_fifo_item_t) × log_fifo_t
  | 0, f => ([], f)
  | n + 1, f =>
    let p := log_fifo_get cap f
    let q := log_fifo_getN cap n p.2
    (p.1 :: q.1, q.2)

/-- The queue's abstract contents: the `nItems` stored records, oldest first,
read circularly from `rdIdx`. -/
def log_fifo_contents (cap : Nat) (f : log_fifo_t) : List log_fifo_item_t :=
  (List.range f.nItems).map (fun i => f.buffer ((f.rdIdx + i) % cap))

/-- Structural well-formedness of a FIFO state: the counter is bounded by the
capacity, the read index is in range, and the write index sits `nItems`
slots (circularly) past the read index.  It holds after `log_fifo_reset` and
is preserved by `log_fifo_put` and `log_fifo_get` (proved below), so every
reachable state satisfies it. -/
def log_fifo_wf (cap : Nat) (f : log_fifo_t) : Prop :=
  f.nItems ≤ cap ∧ f.rdIdx < cap ∧ f.wrIdx = (f.rdIdx + f.nItems) % cap

/-- The index-range invariant claimed by the specification for the FIFO:
`0 ≤ nItems ≤ capacity` (the lower bound is inherent to `Nat`), and both
indices lie in `[0, capacity)`. -/
def log_fifo_inv (cap : Nat) (f : log_fifo_t) : Prop :=
  f.nItems ≤ cap ∧ f.wrIdx < cap ∧ f.rdIdx < cap

/-- `log_fifo_put` of `src/Src/logger.c` (first revision, lines 46–66).  This
revision reports success: the queue is treated as non-full when the indices
differ or the counter is zero, and the insert advances `wrIdx` with the same
power-of-two mask; on a full queue nothing is written and `false` is
returned. -/
def logger_log_fifo_put (cap : Nat) (pItem : log_fifo_item_t)
    (pFifo : log_fifo_t) : Bool × log_fifo_t :=
  if pFifo.wrIdx ≠ pFifo.rdIdx ∨ pFifo.nItems = 0 then
    (true,
      { buffer := fun i => if i = pFifo.wrIdx then pItem else pFifo.buffer i
        wrIdx := (pFifo.wrIdx + 1) &&& (cap - 1)
        rdIdx := pFifo.rdIdx
        nItems := pFifo.nItems + 1 })
  else
    (false, pFifo)

/-! ## Numeric text conversion (`src/unnamed/part_002`) -/

/-- First loop of `process_decimal` (lines 215–216): `while(number < divider)
divider /= 10;`.  The loop variant is `divider`, which is not a structural
argument, so the recursion carries explicit fuel.  Starting from the source's
initial divider `10^9` the chain `10^9, 10^8, …, 10, 1, 0` stabilises at `0`
(the guard `number < 0` is false for every `Nat`), so any fuel `≥ 11` makes
this agree with the C loop on every input reachable from `process_decimal`. -/
def dec_divider : Nat → Nat → Nat → Nat
  | 0, _, divider => divider
  | fuel + 1, number, divider =>
    if number < divider then dec_divider fuel number (divider / 10)
    else divider

/-- Second loop of `process_decimal` (lines 218–225) fused with the final
`output[i++] = 0x30 + number;` statement: while `divider >= 10` emit
`0x30 + number/divider`, replace `number` with `number % divider` and divide
the divider by ten; when the loop exits emit the residual digit.  The divider
chain from `process_decimal` starts at most at `10^9`, so nine iterations can
occur and any fuel `≥ 9` agrees with the C loop there. -/
def dec_out : Nat → Nat → Nat → List Nat
  | 0, number, _ => [0x30 + number]
  | fuel + 1, number, divider =>
    if 10 ≤ divider then
      (0x30 + number / divider) :: dec_out fuel (number % divider) (divider / 10)
    else
      [0x30 + number]

/-- `process_decimal` of `src/unnamed/part_002` (lines 206–227): an optional
`'-'` (byte `0x2D`), then the digits produced by dividing down from the
largest power of ten not exceeding the number.  The emitted bytes are the
`output` buffer as handed to `process_string`. -/
def process_decimal (number : Nat) (isNegative : Bool) : List Nat :=
  (if isNegative then [0x2D] else []) ++
    dec_out 10 number (dec_divider 11 number 1000000000)

/-- The `hexVals` table of `process_hexadecimal`: `'0'..'9','A'..'F'`. -/
def hexVals : List Nat :=
  [0x30, 0x31, 0x32, 0x33, 0x34, 0x35, 0x36, 0x37,
   0x38, 0x39, 0x41, 0x42, 0x43, 0x44, 0x45, 0x46]

/-- `process_hexadecimal` of `src/unnamed/part_002` (lines 182–197): fill the
output from the end with `hexVals[number & 0x0F]`, shifting `number` right by
four bits each step, for exactly `nDigits` positions.  The C loop walks the
index down from `nDigits-1`; the recursion peels off the last (least
significant) digit, which is what the loop writes at the highest index. -/
def process_hexadecimal (number : Nat) (nDigits : Nat) : List Nat :=
  match nDigits with
  | 0 => []
  | n + 1 => process_hexadecimal (number / 16) n ++ [hexVals.getD (number % 16) 0]

/-- Two's-complement reading of the low `bits` bits of a machine word: the C
cast `(int8_t)/(int16_t)/(int32_t)` applied to a stored 32-bit value. -/
def toSigned (bits : Nat) (x : Nat) : Int :=
  if x % 2 ^ bits < 2 ^ (bits - 1) then (x % 2 ^ bits : Int)
  else (x % 2 ^ bits : Int) - 2 ^ bits

/-- Unsigned 32-bit negation, the C expression `-item.uData` on a `uint32_t`
(used by the `_LOG_INT_DEC` flush case of `src/unnamed/part_002`). -/
def neg32 (x : Nat) : Nat :=
  (2 ^ 32 - x % 2 ^ 32) % 2 ^ 32

/-- The two's-complement 32-bit encoding of a signed value: how an `i8`/`i16`/
`i32` sign-extended into the 32-bit union slot is stored. -/
def encode32 (v : Int) : Nat :=
  (v % (2 ^ 32 : Int)).toNat

/-! ## Producer entry points (`src/unnamed/part_002`) -/

/-- `_log_var` (lines 237–241): build the item `{type, uData = number,
nBytes}` and offer it to the FIFO. -/
def _log_var (cap : Nat) (number : Nat) (nBytes : Nat) (type : log_data_type)
    (f : log_fifo_t) : log_fifo_t :=
  log_fifo_put cap { type := type, uData := number, nBytes := nBytes } f

/-- `_log_str` (lines 250–255): build the item `{_LOG_STRING, str, strLen}`
and insert it only when the pointer is non-NULL (`if(str)`). -/
def _log_str (cap : Nat) (str : Option (List Nat)) (length : Nat)
    (f : log_fifo_t) : log_fifo_t :=
  let item : log_fifo_item_t := { type := log_data_type._LOG_STRING, str := str, strLen := length }
  if str.isSome then log_fifo_put cap item f else f

/-- `_log_char` (lines 263–267): item `{_LOG_CHAR, chr[0] = chr, nChars = 1}`
(the other three bytes of `chr[4]` stay zero-initialised). -/
def _log_char (cap : Nat) (chr : Nat) (f : log_fifo_t) : log_fifo_t :=
  log_fifo_put cap
    { type := log_data_type._LOG_CHAR, chr := [chr, 0, 0, 0], nChars := 1 } f

/-- `LOG_MSG_START_SYMBOL`, `LOG_MSG_STOP_SYMBOL` and
`LOG_MSG_LABEL_SEPARATOR` of `src/Inc/logger.h` (`'<'`, `'>'`, `' '`). -/
def LOG_MSG_START_SYMBOL : Nat := 0x3C

def LOG_MSG_STOP_SYMBOL : Nat := 0x3E

def LOG_MSG_LABEL_SEPARATOR : Nat := 0x20

/-- `_log_msg_start` (lines 310–314). -/
def _log_msg_start (cap : Nat) (label : Option (List Nat)) (length : Nat)
    (f : log_fifo_t) : log_fifo_t :=
  log_fifo_put cap
    { type := log_data_type._LOG_MSG_START, str := label, nChars := length
      msgSymbol := LOG_MSG_START_SYMBOL } f

/-- `_log_msg_stop` (lines 323–327). -/
def _log_msg_stop (cap : Nat) (label : Option (List Nat)) (length : Nat)
    (f : log_fifo_t) : log_fifo_t :=
  log_fifo_put cap
    { type := log_data_type._LOG_MSG_STOP, str := label, nChars := length
      msgSymbol := LOG_MSG_STOP_SYMBOL } f

/-- The element reads of `_log_array` (lines 289–294): a 4-, 2- or 1-byte
little-endian load at `pData[offset]` (the target is a little-endian
Cortex-M).  Memory is a byte function; `% 256` reflects `uint8_t` storage. -/
def readLE (mem : Nat → Nat) (offset : Nat) (nBytesPerItem : Nat) : Nat :=
  if nBytesPerItem = 4 then
    mem offset % 256 + 256 * (mem (offset + 1) % 256) +
      65536 * (mem (offset + 2) % 256) + 16777216 * (mem (offset + 3) % 256)
  else if nBytesPerItem = 2 then
    mem offset % 256 + 256 * (mem (offset + 1) % 256)
  else
    mem offset % 256

/-- The loop of `_log_array` (lines 287–300), state-passing over the FIFO:
each iteration reads one element, offers it via `_log_var`, advances the
offset and — when further items remain (`if(nItems)`) — offers the separator
via `_log_char`. -/
def _log_array_loop (cap : Nat) (mem : Nat → Nat) (offset : Nat)
    (nBytesPerItem : Nat) (type : log_data_type) (separator : Nat) :
    Nat → log_fifo_t → log_fifo_t
  | 0, f => f
  | n + 1, f =>
    let value := readLE mem offset nBytesPerItem
    let f1 := _log_var cap value nBytesPerItem type f
    _log_array_loop cap mem (offset + nBytesPerItem) nBytesPerItem type
      separator n (if n = 0 then f1 else _log_char cap separator f1)

/-- `_log_array` of `src/unnamed/part_002` (lines 281–301). -/
def _log_array (cap : Nat) (mem : Nat → Nat) (nItems : Nat)
    (nBytesPerItem : Nat) (type : log_data_type) (separator : Nat)
    (f : log_fifo_t) : log_fifo_t :=
  _log_array_loop cap mem 0 nBytesPerItem type separator nItems f

/-- The item sequence `_log_array` offers to the FIFO, in call order: one
value item per element, a separator char item after every element except the
last. -/
def _log_array_items (mem : Nat → Nat) (offset : Nat) (nBytesPerItem : Nat)
    (type : log_data_type) (separator : Nat) : Nat → List log_fifo_item_t
  | 0 => []
  | n + 1 =>
    ({ type := type, uData := readLE mem offset nBytesPerItem,
       nBytes := nBytesPerItem } : log_fifo_item_t) ::
      (if n = 0 then []
       else ({ type := log_data_type._LOG_CHAR, chr := [separator, 0, 0, 0],
               nChars := 1 } : log_fifo_item_t) ::
         _log_array_items mem (offset + nBytesPerItem) nBytesPerItem type
           separator n)

/-! ## Drain / flush (`src/unnamed/part_002`) -/

/-- `LOG_FIFO_FULL_MSG`: `"\r\nLog input FIFO full\r\n"`, as bytes. -/
def LOG_FIFO_FULL_MSG : List Nat :=
  [0x0D, 0x0A, 0x4C, 0x6F, 0x67, 0x20, 0x69, 0x6E, 0x70, 0x75, 0x74, 0x20,
   0x46, 0x49, 0x46, 0x4F, 0x20, 0x66, 0x75, 0x6C, 0x6C, 0x0D, 0x0A]

/-- The text one drained item contributes to the output: the `switch` body of
`_log_flush` (lines 345–383), with each `process_*` call replaced by the
bytes it sends to the backend. -/
def flush_item_out (item : log_fifo_item_t) : List Nat :=
  match item.type with
  | log_data_type._LOG_STRING => (item.str.getD []).take item.strLen
  | log_data_type._LOG_UINT_DEC => process_decimal item.uData false
  | log_data_type._LOG_INT_DEC =>
    if toSigned 32 item.uData < 0 then process_decimal (neg32 item.uData) true
    else process_decimal item.uData false
  | log_data_type._LOG_HEX => process_hexadecimal item.uData (item.nBytes * 2)
  | log_data_type._LOG_CHAR => item.chr.take item.nChars
  | log_data_type._LOG_MSG_START =>
    item.msgSymbol ::
      (match item.str with
       | some s => s.take item.nChars ++ [LOG_MSG_LABEL_SEPARATOR]
       | none => [])
  | log_data_type._LOG_MSG_STOP =>
    (match item.str with
     | some s => LOG_MSG_LABEL_SEPARATOR :: s.take item.nChars
     | none => []) ++ [item.msgSymbol]

/-- The `while(log_fifo_get(&item, &logFifo))` loop of `_log_flush` (lines
343–384).  The loop variant is the item counter, which every successful get
decrements, so fuel `f.nItems` (as passed by `_log_flush`) makes the fueled
loop agree with the C loop: once the counter reaches zero the next get fails
and the loop stops by itself. -/
def _log_flush_loop (cap : Nat) : Nat → log_fifo_t → List Nat × log_fifo_t
  | 0, f => ([], f)
  | fuel + 1, f =>
    match log_fifo_get cap f with
    | (none, f') => ([], f')
    | (some item, f') =>
      let rest := _log_flush_loop cap fuel f'
      (flush_item_out item ++ rest.1, rest.2)

/-- `_log_flush` of `src/unnamed/part_002` (lines 336–388): if the FIFO is
found completely full, send `LOG_FIFO_FULL_MSG` first, then drain every item,
appending each item's text.  (`isPublicCall` only selects the backend flush
callback, which produces no bytes.) -/
def _log_flush (cap : Nat) (isPublicCall : Bool) (f : log_fifo_t) :
    List Nat × log_fifo_t :=
  let pre := if f.nItems = cap then LOG_FIFO_FULL_MSG else []
  let rest := _log_flush_loop cap f.nItems f
  (pre ++ rest.1, rest.2)

/-- The per-width signed-decimal flush cases `_LOG_INT_DEC_1/2/4` of the
third revision in `src/Src/logger.c` (lines 646–663): the stored word is cast
to `int8_t`/`int16_t`/`int32_t` according to the operand's declared byte
width `w`; a negative result is negated (`(uint32_t)-((intN_t)item.sData)`,
which on the 32-bit target yields the magnitude, `2^31` for `INT32_MIN`) and
printed with the sign, otherwise the full `item.uData` is printed unsigned. -/
def logger_flush_int_dec (uData : Nat) (w : Nat) : List Nat :=
  if toSigned (8 * w) uData < 0 then
    process_decimal (-(toSigned (8 * w) uData)).toNat true
  else
    process_decimal uData false


/-! ## The colored second revision of `log.c` (`src/Src/log.c`, used for the
color sentinel claim): `set_color` (lines 395–414) and the per-item body of
`log_flush` (lines 521–551). -/

namespace LogV2

/-- `enum log_color` of `src/Inc/log.h`.  `_LOG_COLOR_LEN` is the table-size
marker sitting between `LOG_COLOR_WHITE` and `LOG_COLOR_NONE` in the C enum;
it is never used as an event tag and is not a constructor here. -/
inductive log_color where
  | LOG_COLOR_DEFAULT
  | LOG_COLOR_BLACK
  | LOG_COLOR_RED
  | LOG_COLOR_GREEN
  | LOG_COLOR_YELLOW
  | LOG_COLOR_BLUE
  | LOG_COLOR_MAGENTA
  | LOG_COLOR_CYAN
  | LOG_COLOR_WHITE
  | LOG_COLOR_NONE
  deriving DecidableEq, Repr

open log_color

/-- The numeric value of each enum tag (its C declaration position;
`LOG_COLOR_NONE` is 10 because `_LOG_COLOR_LEN` occupies 9). -/
def log_color_val : log_color → Nat
  | LOG_COLOR_DEFAULT => 0
  | LOG_COLOR_BLACK => 1
  | LOG_COLOR_RED => 2
  | LOG_COLOR_GREEN => 3
  | LOG_COLOR_YELLOW => 4
  | LOG_COLOR_BLUE => 5
  | LOG_COLOR_MAGENTA => 6
  | LOG_COLOR_CYAN => 7
  | LOG_COLOR_WHITE => 8
  | LOG_COLOR_NONE => 10

/-- The `ansi_colors[_LOG_COLOR_LEN][2]` table:
`{'0',' '},{'3','0'},…,{'3','7'}` as byte pairs. -/
def ansi_colors : List (Nat × Nat) :=
  [(0x30, 0x20), (0x33, 0x30), (0x33, 0x31), (0x33, 0x32), (0x33, 0x33),
   (0x33, 0x34), (0x33, 0x35), (0x33, 0x36), (0x33, 0x37)]

/-- `set_color` of `src/Src/log.c` (lines 395–414): nothing for
`LOG_COLOR_NONE`; otherwise the prefix `"\x1B["` (bytes `0x1B 0x5B`), the
first table byte, and — for every color except `LOG_COLOR_DEFAULT` — the
second table byte as well, closed by the suffix `'m'` (`0x6D`).  Exactly the
bytes handed to `vcp_send`. -/
def set_color (color : log_color) : List Nat :=
  if color ≠ LOG_COLOR_NONE then
    let code := ansi_colors.getD (log_color_val color) (0, 0)
    if color ≠ LOG_COLOR_DEFAULT then
      [0x1B, 0x5B, code.1, code.2, 0x6D]
    else
      [0x1B, 0x5B, code.1, 0x6D]
  else
    []

/-- `enum log_data_type` as used by this revision's `log_flush` switch. -/
inductive log_data_type where
  | LOG_STRING
  | LOG_UINT_DEC
  | LOG_INT_DEC
  | LOG_HEX_2
  | LOG_HEX_4
  | LOG_HEX_8
  | LOG_CHAR
  deriving DecidableEq, Repr

/-- `struct log_fifo_item_s` of this revision (unions split into fields as in
the main embedding; `color` is present because `LOG_SUPPORT_ANSI_COLOR` is
set to 1 in `src/Inc/log.h`). -/
structure log_fifo_item_t where
  uData : Nat := 0
  str : Option (List Nat) := none
  chr : List Nat := [0, 0, 0, 0]
  str_len : Nat := 0
  nChars : Nat := 0
  type : log_data_type
  color : log_color := log_color.LOG_COLOR_NONE
  deriving DecidableEq, Repr

/-- The digit loop of this revision's `process_decimal` (line 454: the guard
is `while(number >= 10)`, unlike `part_002`'s `while(divider >= 10)`), fused
with the final `output[i++] = 0x30 + number;`.  Fuel as in `dec_out`. -/
def dec_out_v2 : Nat → Nat → Nat → List Nat
  | 0, number, _ => [0x30 + number]
  | fuel + 1, number, divider =>
    if 10 ≤ number then
      (0x30 + number / divider) :: dec_out_v2 fuel (number % divider) (divider / 10)
    else
      [0x30 + number]

/-- `process_decimal` of `src/Src/log.c` second revision (lines 442–463). -/
def process_decimal (number : Nat) (isNegative : Bool) : List Nat :=
  (if isNegative then [0x2D] else []) ++
    dec_out_v2 10 number (dec_divider 11 number 1000000000)

/-- The text one drained item contributes after its color escape: the
`switch` body of this revision's `log_flush` (lines 526–551).  Its
`process_hexadecimal` is character-identical to `part_002`'s, which is reused
here. -/
def render (item : log_fifo_item_t) : List Nat :=
  match item.type with
  | log_data_type.LOG_STRING => (item.str.getD []).take item.str_len
  | log_data_type.LOG_UINT_DEC => process_decimal item.uData false
  | log_data_type.LOG_INT_DEC =>
    if toSigned 32 item.uData < 0 then process_decimal (neg32 item.uData) true
    else process_decimal item.uData false
  | log_data_type.LOG_HEX_2 => process_hexadecimal item.uData 2
  | log_data_type.LOG_HEX_4 => process_hexadecimal item.uData 4
  | log_data_type.LOG_HEX_8 => process_hexadecimal item.uData 8
  | log_data_type.LOG_CHAR => item.chr.take item.nChars

/-- One iteration of this revision's `log_flush` drain loop (lines 521–551):
`set_color(item.color)` runs first, then the switch emits the item's own
text — so the full escape sequence, when any, immediately precedes the text
and nothing follows it. -/
def log_flush_item_out (item : log_fifo_item_t) : List Nat :=
  set_color item.color ++ render item

end LogV2

/-- A concrete red-tagged char event, used to instantiate the color law. -/
def sample_red_char : LogV2.log_fifo_item_t :=
  { type := LogV2.log_data_type.LOG_CHAR, chr := [88, 0, 0, 0],
    nChars := 1, color := LogV2.log_color.LOG_COLOR_RED }

/-! ## Parsing functions used to state the round-trip properties -/

/-- Read a decimal digit string (bytes `0x30`–`0x39`) back as a number. -/
def dec_parse (l : List Nat) : Nat :=
  l.foldl (fun a c => 10 * a + (c - 0x30)) 0

/-- Value of one uppercase hexadecimal digit byte. -/
def hex_digit_val (c : Nat) : Nat :=
  if c ≤ 0x39 then c - 0x30 else c - 55

/-- Read an uppercase hexadecimal digit string back as a number. -/
def hex_parse (l : List Nat) : Nat :=
  l.foldl (fun a c => 16 * a + hex_digit_val c) 0

/-! # Theorems

First the FIFO theory: the bitmask wrap, well-formedness, and how `put` and
`get` act on the abstract contents. -/

theorem mask_eq_mod (k x : Nat) : x &&& (2 ^ k - 1) = x % 2 ^ k :=
  Nat.and_pow_two_sub_one_eq_mod x k

theorem log_fifo_contents_length (cap : Nat) (f : log_fifo_t) :
    (log_fifo_contents cap f).length = f.nItems := by
  simp [log_fifo_contents]

theorem log_fifo_wf_reset {cap : Nat} (hpos : 0 < cap) (f0 : log_fifo_t) :
    log_fifo_wf cap (log_fifo_reset f0) := by
  refine ⟨by simp [log_fifo_reset], by simpa [log_fifo_reset] using hpos, ?_⟩
  simp [log_fifo_reset]

theorem log_fifo_contents_reset (cap : Nat) (f0 : log_fifo_t) :
    log_fifo_contents cap (log_fifo_reset f0) = [] := by
  simp [log_fifo_contents, log_fifo_reset]

theorem log_fifo_put_of_full {cap : Nat} (f : log_fifo_t)
    (h : cap ≤ f.nItems) (x : log_fifo_item_t) : log_fifo_put cap x f = f := by
  simp [log_fifo_put, Nat.not_lt.mpr h]

theorem log_fifo_put_pos {cap k : Nat} (hcap : cap = 2 ^ k) {f : log_fifo_t}
    (x : log_fifo_item_t) (h : f.nItems < cap) :
    log_fifo_put cap x f =
      { buffer := fun i => if i = f.wrIdx then x else f.buffer i
        wrIdx := (f.wrIdx + 1) % cap
        rdIdx := f.rdIdx
        nItems := f.nItems + 1 } := by
  subst hcap
  simp [log_fifo_put, h, mask_eq_mod]

theorem log_fifo_get_pos {cap k : Nat} (hcap : cap = 2 ^ k) {f : log_fifo_t}
    (h : f.nItems ≠ 0) :
    log_fifo_get cap f =
      (some (f.buffer f.rdIdx),
        { f with rdIdx := (f.rdIdx + 1) % cap, nItems := f.nItems - 1 }) := by
  subst hcap
  simp [log_fifo_get, h, mask_eq_mod]

theorem log_fifo_get_zero {cap : Nat} {f : log_fifo_t} (h : f.nItems = 0) :
    log_fifo_get cap f = (none, f) := by
  simp [log_fifo_get, h]

theorem mod_index_ne {cap : Nat} (rd : Nat) {i n : Nat} (hi : i < n)
    (hn : n < cap) : (rd + i) % cap ≠ (rd + n) % cap := by
  intro hEq
  have h2 : i ≡ n [MOD cap] := Nat.ModEq.add_left_cancel' rd hEq
  have h3 : cap ∣ n - i := (Nat.modEq_iff_dvd' (Nat.le_of_lt hi)).mp h2
  have h5 : 0 < n - i := by omega
  exact absurd (Nat.le_of_dvd h5 h3) (by omega)

theorem log_fifo_wf_put {cap k : Nat} (hcap : cap = 2 ^ k) {f : log_fifo_t}
    (hwf : log_fifo_wf cap f) (x : log_fifo_item_t) :
    log_fifo_wf cap (log_fifo_put cap x f) := by
  have hpos : 0 < cap := hcap ▸ pow_pos (by norm_num) k
  obtain ⟨h1, h2, h3⟩ := hwf
  by_cases h : f.nItems < cap
  · rw [log_fifo_put_pos hcap x h]
    refine ⟨h, h2, ?_⟩
    show (f.wrIdx + 1) % cap = (f.rdIdx + (f.nItems + 1)) % cap
    rw [h3, Nat.mod_add_mod]
    have harg : f.rdIdx + f.nItems + 1 = f.rdIdx + (f.nItems + 1) := by omega
    rw [harg]
  · rw [log_fifo_put_of_full f (by omega) x]
    exact ⟨h1, h2, h3⟩

theorem log_fifo_contents_put {cap k : Nat} (hcap : cap = 2 ^ k)
    {f : log_fifo_t} (hwf : log_fifo_wf cap f) (x : log_fifo_item_t)
    (h : f.nItems < cap) :
    log_fifo_contents cap (log_fifo_put cap x f) =
      log_fifo_contents cap f ++ [x] := by
  obtain ⟨h1, h2, h3⟩ := hwf
  rw [log_fifo_put_pos hcap x h]
  show (List.range (f.nItems + 1)).map _ = _
  rw [List.range_succ, List.map_append]
  congr 1
  · apply List.map_congr_left
    intro i hi
    have hi' : i < f.nItems := List.mem_range.mp hi
    have hne : (f.rdIdx + i) % cap ≠ f.wrIdx := by
      rw [h3]
      exact mod_index_ne f.rdIdx hi' h
    simp [hne]
  · have heq : (f.rdIdx + f.nItems) % cap = f.wrIdx := h3.symm
    simp [heq]

theorem log_fifo_wf_get {cap k : Nat} (hcap : cap = 2 ^ k) {f : log_fifo_t}
    (hwf : log_fifo_wf cap f) : log_fifo_wf cap (log_fifo_get cap f).2 := by
  have hpos : 0 < cap := hcap ▸ pow_pos (by norm_num) k
  obtain ⟨h1, h2, h3⟩ := hwf
  by_cases h : f.nItems = 0
  · rw [log_fifo_get_zero h]
    exact ⟨h1, h2, h3⟩
  · rw [log_fifo_get_pos hcap h]
    show log_fifo_wf cap
      { f with rdIdx := (f.rdIdx + 1) % cap, nItems := f.nItems - 1 }
    refine ⟨?_, ?_, ?_⟩
    · show f.nItems - 1 ≤ cap
      omega
    · show (f.rdIdx + 1) % cap < cap
      exact Nat.mod_lt _ hpos
    · show f.wrIdx = ((f.rdIdx + 1) % cap + (f.nItems - 1)) % cap
      rw [Nat.mod_add_mod, h3]
      have harg : f.rdIdx + 1 + (f.nItems - 1) = f.rdIdx + f.nItems := by omega
      rw [harg]

theorem log_fifo_contents_get {cap k : Nat} (hcap : cap = 2 ^ k)
    {f : log_fifo_t} (hwf : log_fifo_wf cap f) (h : f.nItems ≠ 0) :
    log_fifo_contents cap f =
      f.buffer f.rdIdx :: log_fifo_contents cap (log_fifo_get cap f).2 := by
  obtain ⟨h1, h2, h3⟩ := hwf
  rw [log_fifo_get_pos hcap h]
  obtain ⟨m, hm⟩ : ∃ m, f.nItems = m + 1 := ⟨f.nItems - 1, by omega⟩
  show (List.range f.nItems).map _ = _
  rw [hm, List.range_succ_eq_map, List.map_cons, List.map_map]
  congr 1
  · simp [Nat.mod_eq_of_lt h2]
  · show _ = log_fifo_contents cap _
    unfold log_fifo_contents
    simp only [hm]
    show List.map _ (List.range m) = List.map _ (List.range (m + 1 - 1))
    rw [Nat.add_sub_cancel]
    apply List.map_congr_left
    intro i _
    show f.buffer ((f.rdIdx + Nat.succ i) % cap) =
      f.buffer (((f.rdIdx + 1) % cap + i) % cap)
    rw [Nat.mod_add_mod]
    have harg : f.rdIdx + 1 + i = f.rdIdx + Nat.succ i := by omega
    rw [harg]

theorem log_fifo_putList_spec {cap k : Nat} (hcap : cap = 2 ^ k) :
    ∀ (L : List log_fifo_item_t) (f : log_fifo_t), log_fifo_wf cap f →
      log_fifo_wf cap (log_fifo_putList cap L f) ∧
      log_fifo_contents cap (log_fifo_putList cap L f) =
        log_fifo_contents cap f ++ L.take (cap - f.nItems) := by
  intro L
  induction L with
  | nil =>
    intro f hwf
    exact ⟨hwf, by simp [log_fifo_putList]⟩
  | cons x L ih =>
    intro f hwf
    have step : log_fifo_putList cap (x :: L) f =
        log_fifo_putList cap L (log_fifo_put cap x f) := rfl
    by_cases h : f.nItems < cap
    · have hwf' := log_fifo_wf_put hcap hwf x
      obtain ⟨ihw, ihc⟩ := ih (log_fifo_put cap x f) hwf'
      refine ⟨by rw [step]; exact ihw, ?_⟩
      rw [step, ihc, log_fifo_contents_put hcap hwf x h]
      have hn : (log_fifo_put cap x f).nItems = f.nItems + 1 := by
        rw [log_fifo_put_pos hcap x h]
      rw [hn, List.append_assoc]
      congr 1
      have hsub : cap - f.nItems = (cap - (f.nItems + 1)) + 1 := by omega
      rw [hsub, List.take_succ_cons]
      rfl
    · have hput : log_fifo_put cap x f = f :=
        log_fifo_put_of_full f (by omega) x
      obtain ⟨ihw, ihc⟩ := ih f hwf
      refine ⟨by rw [step, hput]; exact ihw, ?_⟩
      rw [step, hput, ihc]
      have h0 : cap - f.nItems = 0 := by omega
      rw [h0]
      simp

theorem log_fifo_getN_spec {cap k : Nat} (hcap : cap = 2 ^ k) :
    ∀ (n : Nat) (f : log_fifo_t), log_fifo_wf cap f → f.nItems = n →
      (log_fifo_getN cap (n + 1) f).1 =
        (log_fifo_contents cap f).map some ++ [none] := by
  intro n
  induction n with
  | zero =>
    intro f _ h0
    simp [log_fifo_getN, log_fifo_get_zero h0, log_fifo_contents, h0]
  | succ m ih =>
    intro f hwf hn
    have hne : f.nItems ≠ 0 := by omega
    have hc := log_fifo_contents_get hcap hwf hne
    have hwf' := log_fifo_wf_get hcap hwf
    have hn' : (log_fifo_get cap f).2.nItems = m := by
      rw [log_fifo_get_pos hcap hne]
      show f.nItems - 1 = m
      omega
    have hfst : (log_fifo_get cap f).1 = some (f.buffer f.rdIdx) := by
      rw [log_fifo_get_pos hcap hne]
    show (log_fifo_get cap f).1 ::
        (log_fifo_getN cap (m + 1) (log_fifo_get cap f).2).1 = _
    rw [hfst, ih _ hwf' hn', hc]
    simp

/-- C1: starting from a reset FIFO, any sequence of `log_fifo_put` calls of
length at most the capacity followed by as many `log_fifo_get` calls returns
exactly the items that were put, in the same order, and the next
`log_fifo_get` after them reports failure (`none`, the C `false`). -/
theorem log_fifo_fifo_law (cap k : Nat) (hcap : cap = 2 ^ k)
    (L : List log_fifo_item_t) (hlen : L.length ≤ cap) (f0 : log_fifo_t) :
    (log_fifo_getN cap (L.length + 1)
        (log_fifo_putList cap L (log_fifo_reset f0))).1 =
      L.map some ++ [none] := by
  have hpos : 0 < cap := hcap ▸ pow_pos (by norm_num) k
  have hwf0 := log_fifo_wf_reset hpos f0
  obtain ⟨hwf1, hc1⟩ := log_fifo_putList_spec hcap L (log_fifo_reset f0) hwf0
  rw [log_fifo_contents_reset] at hc1
  have hn0 : (log_fifo_reset f0).nItems = 0 := rfl
  rw [hn0, Nat.sub_zero, List.take_of_length_le hlen, List.nil_append] at hc1
  have hitems : (log_fifo_putList cap L (log_fifo_reset f0)).nItems =
      L.length := by
    rw [← log_fifo_contents_length cap, hc1]
  rw [log_fifo_getN_spec hcap L.length _ hwf1 hitems, hc1]

/-- C1 witness: capacity 4, three put items, instantiating the FIFO law. -/
theorem log_fifo_fifo_law_witness :
    (4 = 2 ^ 2 ∧
      ([({ type := log_data_type._LOG_CHAR } : log_fifo_item_t),
        { type := log_data_type._LOG_UINT_DEC, uData := 7 },
        { type := log_data_type._LOG_CHAR, chr := [65, 0, 0, 0] }] :
          List log_fifo_item_t).length ≤ 4) ∧
    (log_fifo_getN 4 (([({ type := log_data_type._LOG_CHAR } : log_fifo_item_t),
        { type := log_data_type._LOG_UINT_DEC, uData := 7 },
        { type := log_data_type._LOG_CHAR, chr := [65, 0, 0, 0] }] :
          List log_fifo_item_t).length + 1)
        (log_fifo_putList 4
          [{ type := log_data_type._LOG_CHAR },
           { type := log_data_type._LOG_UINT_DEC, uData := 7 },
           { type := log_data_type._LOG_CHAR, chr := [65, 0, 0, 0] }]
          (log_fifo_reset
            { buffer := fun _ => { type := log_data_type._LOG_CHAR },
              wrIdx := 3, rdIdx := 1, nItems := 2 }))).1 =
      ([{ type := log_data_type._LOG_CHAR },
        { type := log_data_type._LOG_UINT_DEC, uData := 7 },
        { type := log_data_type._LOG_CHAR, chr := [65, 0, 0, 0] }] :
          List log_fifo_item_t).map some ++ [none] :=
  ⟨⟨by decide, by decide⟩,
    log_fifo_fifo_law 4 2 (by decide) _ (by decide) _⟩

/-- C9: with the capacity a power of two (the `static_assert` in `log_init`),
the predicate `nItems ≤ capacity ∧ wrIdx < capacity ∧ rdIdx < capacity`
holds after `log_fifo_reset` and is preserved by every `log_fifo_put` and
every `log_fifo_get`, so it holds in every reachable FIFO state; moreover
the bitmask wrap `x &&& (capacity - 1)` coincides with `x % capacity`. -/
theorem log_fifo_index_invariant (cap k : Nat) (hcap : cap = 2 ^ k) :
    (∀ f0 : log_fifo_t, log_fifo_inv cap (log_fifo_reset f0)) ∧
    (∀ (f : log_fifo_t) (x : log_fifo_item_t), log_fifo_inv cap f →
      log_fifo_inv cap (log_fifo_put cap x f)) ∧
    (∀ f : log_fifo_t, log_fifo_inv cap f →
      log_fifo_inv cap (log_fifo_get cap f).2) ∧
    (∀ x : Nat, x &&& (cap - 1) = x % cap) := by
  have hpos : 0 < cap := hcap ▸ pow_pos (by norm_num) k
  have hmask : ∀ x : Nat, x &&& (cap - 1) = x % cap := by
    intro x
    rw [hcap]
    exact mask_eq_mod k x
  refine ⟨?_, ?_, ?_, hmask⟩
  · intro f0
    exact ⟨by simp [log_fifo_reset], by simpa [log_fifo_reset] using hpos,
      by simpa [log_fifo_reset] using hpos⟩
  · intro f x hinv
    obtain ⟨h1, h2, h3⟩ := hinv
    by_cases h : f.nItems < cap
    · rw [log_fifo_put_pos hcap x h]
      exact ⟨h, Nat.mod_lt _ hpos, h3⟩
    · rw [log_fifo_put_of_full f (by omega) x]
      exact ⟨h1, h2, h3⟩
  · intro f hinv
    obtain ⟨h1, h2, h3⟩ := hinv
    by_cases h : f.nItems = 0
    · rw [log_fifo_get_zero h]
      exact ⟨h1, h2, h3⟩
    · rw [log_fifo_get_pos hcap h]
      exact ⟨by show f.nItems - 1 ≤ cap; omega, h2,
        by show (f.rdIdx + 1) % cap < cap; exact Nat.mod_lt _ hpos⟩

/-- C9 witness: the invariant machinery instantiated at capacity `128 = 2^7`
(the configured `LOG_INPUT_FIFO_N_ELEM` of the `part_001` header), applied to
a concrete reset state. -/
theorem log_fifo_index_invariant_witness :
    128 = 2 ^ 7 ∧
    log_fifo_inv 128 (log_fifo_reset
      { buffer := fun _ => { type := log_data_type._LOG_CHAR },
        wrIdx := 55, rdIdx := 99, nItems := 3 }) :=
  ⟨by decide,
    (log_fifo_index_invariant 128 7 (by decide)).1
      { buffer := fun _ => { type := log_data_type._LOG_CHAR },
        wrIdx := 55, rdIdx := 99, nItems := 3 }⟩

/-- C2: a `put` on a full FIFO (`nItems` equal to the capacity) leaves the
whole state — buffer contents and all three control fields — unchanged and
overwrites nothing; the first-revision `log_fifo_put` of `src/Src/logger.c`,
which reports success to the caller, returns `false` in that situation.  The
well-formedness hypothesis holds in every reachable state (established by
`log_fifo_wf_reset`, `log_fifo_wf_put` and `log_fifo_wf_get`). -/
theorem log_fifo_put_on_full (cap k : Nat) (hcap : cap = 2 ^ k)
    (f : log_fifo_t) (hwf : log_fifo_wf cap f) (hfull : f.nItems = cap)
    (x : log_fifo_item_t) :
    log_fifo_put cap x f = f ∧
    (logger_log_fifo_put cap x f).1 = false ∧
    (logger_log_fifo_put cap x f).2 = f := by
  obtain ⟨h1, h2, h3⟩ := hwf
  have hpos : 0 < cap := hcap ▸ pow_pos (by norm_num) k
  have hwr : f.wrIdx = f.rdIdx := by
    rw [h3, hfull, Nat.add_mod_right, Nat.mod_eq_of_lt h2]
  have hne : f.nItems ≠ 0 := by omega
  refine ⟨log_fifo_put_of_full f (Nat.le_of_eq hfull.symm) x, ?_, ?_⟩
  · simp [logger_log_fifo_put, hwr, hne]
  · simp [logger_log_fifo_put, hwr, hne]

/-- C2 witness: a concrete full two-slot FIFO; both revisions leave it
unchanged and the reporting revision returns `false`. -/
theorem log_fifo_put_on_full_witness :
    (2 = 2 ^ 1 ∧
      log_fifo_wf 2
        { buffer := fun _ => { type := log_data_type._LOG_CHAR },
          wrIdx := 0, rdIdx := 0, nItems := 2 } ∧
      ({ buffer := fun _ => { type := log_data_type._LOG_CHAR },
          wrIdx := 0, rdIdx := 0, nItems := 2 } : log_fifo_t).nItems = 2) ∧
    (log_fifo_put 2 { type := log_data_type._LOG_UINT_DEC, uData := 9 }
        { buffer := fun _ => { type := log_data_type._LOG_CHAR },
          wrIdx := 0, rdIdx := 0, nItems := 2 } =
        { buffer := fun _ => { type := log_data_type._LOG_CHAR },
          wrIdx := 0, rdIdx := 0, nItems := 2 } ∧
      (logger_log_fifo_put 2 { type := log_data_type._LOG_UINT_DEC, uData := 9 }
        { buffer := fun _ => { type := log_data_type._LOG_CHAR },
          wrIdx := 0, rdIdx := 0, nItems := 2 }).1 = false ∧
      (logger_log_fifo_put 2 { type := log_data_type._LOG_UINT_DEC, uData := 9 }
        { buffer := fun _ => { type := log_data_type._LOG_CHAR },
          wrIdx := 0, rdIdx := 0, nItems := 2 }).2 =
        { buffer := fun _ => { type := log_data_type._LOG_CHAR },
          wrIdx := 0, rdIdx := 0, nItems := 2 }) :=
  ⟨⟨by decide, ⟨by decide, by decide, by decide⟩, rfl⟩,
    log_fifo_put_on_full 2 1 (by decide) _
      ⟨by decide, by decide, by decide⟩ rfl _⟩

/-- C10: `_log_str` with a NULL string pointer is a complete no-op — the FIFO
state is returned untouched — while with any non-NULL pointer the
`_LOG_STRING` item carrying that pointer and length is offered to the FIFO
via `log_fifo_put`. -/
theorem log_str_null_guard (cap : Nat) (length : Nat) (f : log_fifo_t) :
    _log_str cap none length f = f ∧
    ∀ s : List Nat,
      _log_str cap (some s) length f =
        log_fifo_put cap
          { type := log_data_type._LOG_STRING, str := some s,
            strLen := length } f := by
  constructor
  · rfl
  · intro s
    rfl

/-! ## Decimal conversion -/

theorem dec_parse_aux (l : List Nat) :
    ∀ a : Nat, l.foldl (fun a c => 10 * a + (c - 0x30)) a =
      a * 10 ^ l.length + dec_parse l := by
  induction l with
  | nil => intro a; simp [dec_parse]
  | cons c t ih =>
    intro a
    show t.foldl _ (10 * a + (c - 0x30)) = _
    rw [ih (10 * a + (c - 0x30))]
    have hp : dec_parse (c :: t) = t.foldl (fun a c => 10 * a + (c - 0x30))
        (10 * 0 + (c - 0x30)) := rfl
    rw [hp, ih (10 * 0 + (c - 0x30))]
    simp [List.length_cons, Nat.pow_succ]
    ring

theorem dec_out_zero_divider (fuel n : Nat) : dec_out fuel n 0 = [0x30 + n] := by
  cases fuel with
  | zero => rfl
  | succ m => simp [dec_out]

theorem dec_out_spec :
    ∀ (j fuel number : Nat), j < fuel → number < 10 ^ (j + 1) →
      (dec_out fuel number (10 ^ j)).length = j + 1 ∧
      dec_parse (dec_out fuel number (10 ^ j)) = number ∧
      (∀ c ∈ dec_out fuel number (10 ^ j), 0x30 ≤ c ∧ c ≤ 0x39) ∧
      (dec_out fuel number (10 ^ j)).head? =
        some (0x30 + number / 10 ^ j) := by
  intro j
  induction j with
  | zero =>
    intro fuel number hfuel hlt
    obtain ⟨m, rfl⟩ : ∃ m, fuel = m + 1 := ⟨fuel - 1, by omega⟩
    have hout : dec_out (m + 1) number (10 ^ 0) = [0x30 + number] := by
      simp [dec_out]
    rw [hout]
    have h9 : number ≤ 9 := by
      have : number < 10 := by simpa using hlt
      omega
    refine ⟨rfl, ?_, ?_, by simp⟩
    · show dec_parse [0x30 + number] = number
      simp [dec_parse]
    · intro c hc
      simp at hc
      omega
  | succ j ih =>
    intro fuel number hfuel hlt
    obtain ⟨m, rfl⟩ : ∃ m, fuel = m + 1 := ⟨fuel - 1, by omega⟩
    have hge : (10 : Nat) ≤ 10 ^ (j + 1) := by
      calc (10 : Nat) = 10 ^ 1 := by norm_num
      _ ≤ 10 ^ (j + 1) := Nat.pow_le_pow_right (by norm_num) (by omega)
    have hdiv10 : 10 ^ (j + 1) / 10 = 10 ^ j := by
      rw [Nat.pow_succ]
      exact Nat.mul_div_cancel _ (by norm_num)
    have hout : dec_out (m + 1) number (10 ^ (j + 1)) =
        (0x30 + number / 10 ^ (j + 1)) ::
          dec_out m (number % 10 ^ (j + 1)) (10 ^ j) := by
      simp [dec_out, hge, hdiv10]
    have hmlt : number % 10 ^ (j + 1) < 10 ^ (j + 1) :=
      Nat.mod_lt _ (pow_pos (by norm_num) _)
    obtain ⟨ihl, ihp, ihd, _⟩ := ih m (number % 10 ^ (j + 1)) (by omega) hmlt
    have hdig : number / 10 ^ (j + 1) ≤ 9 := by
      have h1 : number < 10 * 10 ^ (j + 1) := by
        calc number < 10 ^ (j + 1 + 1) := hlt
        _ = 10 * 10 ^ (j + 1) := by ring
      have h2 := (Nat.div_lt_iff_lt_mul
        (pow_pos (by norm_num : (0:Nat) < 10) (j + 1))).mpr h1
      omega
    rw [hout]
    refine ⟨by simp [ihl], ?_, ?_, by simp⟩
    · show dec_parse _ = number
      have hp : dec_parse ((0x30 + number / 10 ^ (j + 1)) ::
          dec_out m (number % 10 ^ (j + 1)) (10 ^ j)) =
          (dec_out m (number % 10 ^ (j + 1)) (10 ^ j)).foldl
            (fun a c => 10 * a + (c - 0x30))
            (10 * 0 + (0x30 + number / 10 ^ (j + 1) - 0x30)) := rfl
      rw [hp, dec_parse_aux, ihl, ihp]
      have hsimp : 10 * 0 + (0x30 + number / 10 ^ (j + 1) - 0x30) =
          number / 10 ^ (j + 1) := by simp
      rw [hsimp, Nat.mul_comm]
      exact Nat.div_add_mod number (10 ^ (j + 1))
    · intro c hc
      rcases List.mem_cons.mp hc with h | h
      · subst h
        exact ⟨Nat.le_add_right _ _,
          le_trans (Nat.add_le_add_left hdig _) (by norm_num)⟩
      · exact ihd c h

theorem dec_divider_spec :
    ∀ (j fuel number : Nat), j < fuel → 0 < number → number < 10 ^ (j + 1) →
      ∃ e, e ≤ j ∧ dec_divider fuel number (10 ^ j) = 10 ^ e ∧
        10 ^ e ≤ number ∧ number < 10 ^ (e + 1) := by
  intro j
  induction j with
  | zero =>
    intro fuel number hfuel hpos hlt
    obtain ⟨m, rfl⟩ : ∃ m, fuel = m + 1 := ⟨fuel - 1, by omega⟩
    refine ⟨0, Nat.le_refl 0, ?_, by simpa using hpos, by simpa using hlt⟩
    show dec_divider (m + 1) number (10 ^ 0) = 10 ^ 0
    simp [dec_divider, Nat.lt_one_iff, Nat.pos_iff_ne_zero.mp hpos]
  | succ j ih =>
    intro fuel number hfuel hpos hlt
    obtain ⟨m, rfl⟩ : ∃ m, fuel = m + 1 := ⟨fuel - 1, by omega⟩
    have hdiv10 : 10 ^ (j + 1) / 10 = 10 ^ j := by
      rw [Nat.pow_succ]
      exact Nat.mul_div_cancel _ (by norm_num)
    by_cases h : number < 10 ^ (j + 1)
    · have hstep : dec_divider (m + 1) number (10 ^ (j + 1)) =
          dec_divider m number (10 ^ j) := by
        simp [dec_divider, h, hdiv10]
      obtain ⟨e, he1, he2, he3, he4⟩ := ih m number (by omega) hpos h
      exact ⟨e, by omega, by rw [hstep]; exact he2, he3, he4⟩
    · have hstep : dec_divider (m + 1) number (10 ^ (j + 1)) = 10 ^ (j + 1) := by
        simp [dec_divider, h]
      exact ⟨j + 1, Nat.le_refl _, hstep, by omega, hlt⟩

theorem dec_divider_of_zero :
    ∀ (j fuel : Nat), j + 1 < fuel → dec_divider fuel 0 (10 ^ j) = 0 := by
  intro j
  induction j with
  | zero =>
    intro fuel hfuel
    obtain ⟨m, rfl⟩ : ∃ m, fuel = m + 1 := ⟨fuel - 1, by omega⟩
    obtain ⟨p, rfl⟩ : ∃ p, m = p + 1 := ⟨m - 1, by omega⟩
    show dec_divider (p + 1 + 1) 0 1 = 0
    simp [dec_divider]
  | succ j ih =>
    intro fuel hfuel
    obtain ⟨m, rfl⟩ : ∃ m, fuel = m + 1 := ⟨fuel - 1, by omega⟩
    have hdiv10 : 10 ^ (j + 1) / 10 = 10 ^ j := by
      rw [Nat.pow_succ]
      exact Nat.mul_div_cancel _ (by norm_num)
    have hstep : dec_divider (m + 1) 0 (10 ^ (j + 1)) =
        dec_divider m 0 (10 ^ j) := by
      simp [dec_divider, pow_pos, hdiv10]
    rw [hstep]
    exact ih m (by omega)

/-- C3: for every `u32` value `v`, `process_decimal v false` emits the
minimal decimal digit string of `v` — decimal digit bytes only, no leading
zero except that `v = 0` emits exactly `"0"` — and that string parses back to
`v`; at most ten digits are ever produced over the `u32` range. -/
theorem process_decimal_unsigned_roundtrip (v : Nat) (hv : v < 2 ^ 32) :
    dec_parse (process_decimal v false) = v ∧
    (∀ c ∈ process_decimal v false, 0x30 ≤ c ∧ c ≤ 0x39) ∧
    (v = 0 → process_decimal v false = [0x30]) ∧
    (v ≠ 0 → ∀ c, (process_decimal v false).head? = some c → 0x30 < c) ∧
    (process_decimal v false).length ≤ 10 := by
  by_cases h0 : v = 0
  · subst h0
    have hdd : dec_divider 11 0 1000000000 = 0 := by
      have := dec_divider_of_zero 9 11 (by norm_num)
      simpa using this
    have hout : process_decimal 0 false = [0x30] := by
      simp [process_decimal, hdd, dec_out_zero_divider]
    rw [hout]
    refine ⟨by simp [dec_parse], ?_, fun _ => rfl, fun h => absurd rfl h, by simp⟩
    intro c hc
    simp at hc
    omega
  · have hpos : 0 < v := Nat.pos_of_ne_zero h0
    have hv10 : v < 10 ^ 10 := by
      calc v < 2 ^ 32 := hv
      _ < 10 ^ 10 := by norm_num
    have hstart : (1000000000 : Nat) = 10 ^ 9 := by norm_num
    obtain ⟨e, he1, he2, he3, he4⟩ :=
      dec_divider_spec 9 11 v (by norm_num) hpos (by simpa using hv10)
    have hdd : dec_divider 11 v 1000000000 = 10 ^ e := by
      rw [hstart]
      exact he2
    have hout : process_decimal v false = dec_out 10 v (10 ^ e) := by
      unfold process_decimal
      rw [hdd]
      simp
    obtain ⟨hl, hp, hd, hh⟩ := dec_out_spec e 10 v (by omega) he4
    rw [hout]
    refine ⟨hp, hd, fun h => absurd h h0, ?_, by omega⟩
    intro _ c hc
    rw [hh] at hc
    have hc' : c = 0x30 + v / 10 ^ e := by
      injection hc with h
      exact h.symm
    have hq : 1 ≤ v / 10 ^ e :=
      (Nat.one_le_div_iff (pow_pos (by norm_num) e)).mpr he3
    omega

/-- C3 witness: the round-trip property instantiated at `v = 4294967295`
(the largest `u32`, a ten-digit value). -/
theorem process_decimal_unsigned_roundtrip_witness :
    4294967295 < 2 ^ 32 ∧
    (dec_parse (process_decimal 4294967295 false) = 4294967295 ∧
      (∀ c ∈ process_decimal 4294967295 false, 0x30 ≤ c ∧ c ≤ 0x39) ∧
      (4294967295 = 0 → process_decimal 4294967295 false = [0x30]) ∧
      ((4294967295 : Nat) ≠ 0 → ∀ c,
        (process_decimal 4294967295 false).head? = some c → 0x30 < c) ∧
      (process_decimal 4294967295 false).length ≤ 10) :=
  ⟨by decide, process_decimal_unsigned_roundtrip 4294967295 (by decide)⟩

/-! ## Signed decimal -/

theorem toSigned_encode32 (w : Nat) (hw : w = 1 ∨ w = 2 ∨ w = 4) (v : Int)
    (hlo : -(2 ^ (8 * w - 1)) ≤ v) (hhi : v < 2 ^ (8 * w - 1)) :
    toSigned (8 * w) (encode32 v) = v := by
  rcases hw with rfl | rfl | rfl <;>
    · unfold toSigned encode32
      norm_num at hlo hhi ⊢
      split_ifs with h1 <;> omega

theorem encode32_nonneg (v : Int) (h0 : 0 ≤ v) (h31 : v < 2 ^ 31) :
    encode32 v = v.toNat := by
  unfold encode32
  omega

theorem neg32_encode32 (v : Int) (hlo : -(2 ^ 31) ≤ v) (hneg : v < 0) :
    neg32 (encode32 v) = (-v).toNat := by
  unfold neg32 encode32
  omega

/-- C4: for a signed value sign-extended into the 32-bit slot, the per-width
flush cases of `src/Src/logger.c` use the declared width only to select the
bits forming the signed magnitude: a negative width-truncated value drains to
`'-'` followed by its decimal magnitude and a non-negative one to the plain
digits; `part_002`'s width-less `_LOG_INT_DEC` case produces the identical
output on such sign-extended values; in particular width-1 `-126` drains to
`"-126"` and width-4 `0` drains to `"0"` with no sign. -/
theorem flush_signed_decimal_width (w : Nat) (hw : w = 1 ∨ w = 2 ∨ w = 4)
    (v : Int) (hlo : -(2 ^ (8 * w - 1)) ≤ v) (hhi : v < 2 ^ (8 * w - 1)) :
    (logger_flush_int_dec (encode32 v) w =
      if v < 0 then process_decimal (-v).toNat true
      else process_decimal v.toNat false) ∧
    flush_item_out
        { type := log_data_type._LOG_INT_DEC, uData := encode32 v,
          nBytes := w } =
      logger_flush_int_dec (encode32 v) w ∧
    logger_flush_int_dec (encode32 (-126)) 1 = [0x2D, 0x31, 0x32, 0x36] ∧
    logger_flush_int_dec (encode32 0) 4 = [0x30] := by
  have hts := toSigned_encode32 w hw v hlo hhi
  have hw31 : (2 : Int) ^ (8 * w - 1) ≤ 2 ^ 31 := by
    rcases hw with rfl | rfl | rfl <;> norm_num
  have hlo32 : -(2 ^ 31) ≤ v := le_trans (by omega) hlo
  have hhi32 : v < 2 ^ 31 := lt_of_lt_of_le hhi hw31
  have hts32 : toSigned 32 (encode32 v) = v := by
    have h4 := toSigned_encode32 4 (by tauto) v (by norm_num; omega)
      (by norm_num; omega)
    simpa using h4
  refine ⟨?_, ?_, by decide, by decide⟩
  · unfold logger_flush_int_dec
    rw [hts]
    by_cases hneg : v < 0
    · rw [if_pos hneg, if_pos hneg]
    · rw [if_neg hneg, if_neg hneg]
      congr 1
      exact encode32_nonneg v (by omega) hhi32
  · have hitem : flush_item_out
        { type := log_data_type._LOG_INT_DEC, uData := encode32 v,
          nBytes := w } =
        (if toSigned 32 (encode32 v) < 0 then
          process_decimal (neg32 (encode32 v)) true
        else process_decimal (encode32 v) false) := rfl
    rw [hitem, hts32]
    unfold logger_flush_int_dec
    rw [hts]
    by_cases hneg : v < 0
    · rw [if_pos hneg, if_pos hneg]
      congr 1
      exact neg32_encode32 v hlo32 hneg
    · rw [if_neg hneg, if_neg hneg]

/-- C4 witness: width 1 with the sign-extended value `-126`. -/
theorem flush_signed_decimal_width_witness :
    ((1 = 1 ∨ 1 = 2 ∨ 1 = 4) ∧
      -(2 ^ (8 * 1 - 1)) ≤ (-126 : Int) ∧ (-126 : Int) < 2 ^ (8 * 1 - 1)) ∧
    (logger_flush_int_dec (encode32 (-126)) 1 =
      if (-126 : Int) < 0 then process_decimal ((-(-126) : Int)).toNat true
      else process_decimal ((-126 : Int)).toNat false) ∧
    flush_item_out
        { type := log_data_type._LOG_INT_DEC, uData := encode32 (-126),
          nBytes := 1 } =
      logger_flush_int_dec (encode32 (-126)) 1 ∧
    logger_flush_int_dec (encode32 (-126)) 1 = [0x2D, 0x31, 0x32, 0x36] ∧
    logger_flush_int_dec (encode32 0) 4 = [0x30] :=
  ⟨⟨Or.inl rfl, by decide, by decide⟩,
    flush_signed_decimal_width 1 (Or.inl rfl) (-126) (by decide) (by decide)⟩

/-! ## Hexadecimal conversion -/

theorem hex_parse_aux (l : List Nat) :
    ∀ a : Nat, l.foldl (fun a c => 16 * a + hex_digit_val c) a =
      a * 16 ^ l.length + hex_parse l := by
  induction l with
  | nil => intro a; simp [hex_parse]
  | cons c t ih =>
    intro a
    show t.foldl _ (16 * a + hex_digit_val c) = _
    rw [ih (16 * a + hex_digit_val c)]
    have hp : hex_parse (c :: t) = t.foldl (fun a c => 16 * a + hex_digit_val c)
        (16 * 0 + hex_digit_val c) := rfl
    rw [hp, ih (16 * 0 + hex_digit_val c)]
    simp [List.length_cons, Nat.pow_succ]
    ring

theorem hex_digit_table (d : Nat) (hd : d < 16) :
    ((0x30 ≤ hexVals.getD d 0 ∧ hexVals.getD d 0 ≤ 0x39) ∨
      (0x41 ≤ hexVals.getD d 0 ∧ hexVals.getD d 0 ≤ 0x46)) ∧
    hex_digit_val (hexVals.getD d 0) = d := by
  revert d
  decide

theorem process_hexadecimal_length (n : Nat) :
    ∀ v : Nat, (process_hexadecimal v n).length = n := by
  induction n with
  | zero => intro v; rfl
  | succ m ih =>
    intro v
    show (process_hexadecimal (v / 16) m ++ [hexVals.getD (v % 16) 0]).length = m + 1
    simp [ih]

theorem process_hexadecimal_mem (n : Nat) :
    ∀ v : Nat, ∀ c ∈ process_hexadecimal v n,
      (0x30 ≤ c ∧ c ≤ 0x39) ∨ (0x41 ≤ c ∧ c ≤ 0x46) := by
  induction n with
  | zero => intro v c hc; simp [process_hexadecimal] at hc
  | succ m ih =>
    intro v c hc
    have hc' : c ∈ process_hexadecimal (v / 16) m ++ [hexVals.getD (v % 16) 0] :=
      hc
    rcases List.mem_append.mp hc' with h | h
    · exact ih (v / 16) c h
    · have hd : c = hexVals.getD (v % 16) 0 := by simpa using h
      rw [hd]
      exact (hex_digit_table (v % 16) (Nat.mod_lt _ (by norm_num))).1

theorem process_hexadecimal_parse (n : Nat) :
    ∀ v : Nat, hex_parse (process_hexadecimal v n) = v % 16 ^ n := by
  induction n with
  | zero =>
    intro v
    show hex_parse [] = v % 16 ^ 0
    simp [hex_parse, Nat.mod_one]
  | succ m ih =>
    intro v
    show hex_parse (process_hexadecimal (v / 16) m ++
      [hexVals.getD (v % 16) 0]) = v % 16 ^ (m + 1)
    have hfold : hex_parse (process_hexadecimal (v / 16) m ++
        [hexVals.getD (v % 16) 0]) =
        16 * hex_parse (process_hexadecimal (v / 16) m) +
          hex_digit_val (hexVals.getD (v % 16) 0) := by
      unfold hex_parse
      rw [List.foldl_append]
      rfl
    rw [hfold, ih (v / 16),
      (hex_digit_table (v % 16) (Nat.mod_lt _ (by norm_num))).2]
    have hmul : v % 16 ^ (m + 1) = v % 16 + 16 * (v / 16 % 16 ^ m) := by
      have h1 : (16 : Nat) ^ (m + 1) = 16 * 16 ^ m := by ring
      rw [h1, Nat.mod_mul]
    omega

/-- C5: the hexadecimal conversion always emits exactly `digitCount`
uppercase hexadecimal digit bytes — zero-padded, no `0x` prefix — whose
value is the low `digitCount` nibbles of the input, for every value; the
flush case derives `digitCount` as twice the operand's declared byte width
(2/4/8 digits for 1/2/4 bytes), so an 8-digit conversion of a `u32` parses
back to the full value, and value `0` with eight digits yields
`"00000000"`. -/
theorem process_hexadecimal_fixed_width (v : Nat) (hv : v < 2 ^ 32)
    (w : Nat) (hw : w = 1 ∨ w = 2 ∨ w = 4) :
    flush_item_out { type := log_data_type._LOG_HEX, uData := v, nBytes := w } =
      process_hexadecimal v (w * 2) ∧
    (process_hexadecimal v (w * 2)).length = w * 2 ∧
    (∀ c ∈ process_hexadecimal v (w * 2),
      (0x30 ≤ c ∧ c ≤ 0x39) ∨ (0x41 ≤ c ∧ c ≤ 0x46)) ∧
    hex_parse (process_hexadecimal v (w * 2)) = v % 16 ^ (w * 2) ∧
    (w = 4 → hex_parse (process_hexadecimal v 8) = v) ∧
    process_hexadecimal 0 8 =
      [0x30, 0x30, 0x30, 0x30, 0x30, 0x30, 0x30, 0x30] := by
  refine ⟨rfl, process_hexadecimal_length (w * 2) v,
    process_hexadecimal_mem (w * 2) v, process_hexadecimal_parse (w * 2) v,
    ?_, by decide⟩
  intro hw4
  rw [process_hexadecimal_parse 8 v]
  have h16 : (16 : Nat) ^ 8 = 2 ^ 32 := by norm_num
  rw [h16]
  exact Nat.mod_eq_of_lt hv

/-- C5 witness: value `0x12` with a 1-byte operand (two digits). -/
theorem process_hexadecimal_fixed_width_witness :
    (0x12 < 2 ^ 32 ∧ (1 = 1 ∨ 1 = 2 ∨ 1 = 4)) ∧
    (flush_item_out
        { type := log_data_type._LOG_HEX, uData := 0x12, nBytes := 1 } =
      process_hexadecimal 0x12 (1 * 2) ∧
    (process_hexadecimal 0x12 (1 * 2)).length = 1 * 2 ∧
    (∀ c ∈ process_hexadecimal 0x12 (1 * 2),
      (0x30 ≤ c ∧ c ≤ 0x39) ∨ (0x41 ≤ c ∧ c ≤ 0x46)) ∧
    hex_parse (process_hexadecimal 0x12 (1 * 2)) = 0x12 % 16 ^ (1 * 2) ∧
    (1 = 4 → hex_parse (process_hexadecimal 0x12 8) = 0x12) ∧
    process_hexadecimal 0 8 =
      [0x30, 0x30, 0x30, 0x30, 0x30, 0x30, 0x30, 0x30]) :=
  ⟨⟨by decide, Or.inl rfl⟩,
    process_hexadecimal_fixed_width 0x12 (by decide) 1 (Or.inl rfl)⟩

/-! ## Drain loop -/

theorem _log_flush_loop_spec {cap k : Nat} (hcap : cap = 2 ^ k) :
    ∀ (n : Nat) (f : log_fifo_t), log_fifo_wf cap f → f.nItems = n →
      (_log_flush_loop cap n f).1 =
        ((log_fifo_contents cap f).map flush_item_out).flatten := by
  intro n
  induction n with
  | zero =>
    intro f _ h0
    have hc : log_fifo_contents cap f = [] := by
      simp [log_fifo_contents, h0]
    simp [_log_flush_loop, hc]
  | succ m ih =>
    intro f hwf hn
    have hne : f.nItems ≠ 0 := by omega
    have hget := log_fifo_get_pos hcap hne
    have hwf' := log_fifo_wf_get hcap hwf
    have hn' : (log_fifo_get cap f).2.nItems = m := by
      rw [hget]
      show f.nItems - 1 = m
      omega
    have hc := log_fifo_contents_get hcap hwf hne
    have hstep : (_log_flush_loop cap (m + 1) f).1 =
        flush_item_out (f.buffer f.rdIdx) ++
          (_log_flush_loop cap m (log_fifo_get cap f).2).1 := by
      show (match log_fifo_get cap f with
        | (none, f') => (([] : List Nat), f')
        | (some item, f') =>
          let rest := _log_flush_loop cap m f'
          (flush_item_out item ++ rest.1, rest.2)).1 = _
      rw [hget]
    rw [hstep, ih _ hwf' hn', hc]
    simp

theorem _log_flush_spec {cap k : Nat} (hcap : cap = 2 ^ k) (b : Bool)
    (f : log_fifo_t) (hwf : log_fifo_wf cap f) :
    (_log_flush cap b f).1 =
      (if f.nItems = cap then LOG_FIFO_FULL_MSG else []) ++
        ((log_fifo_contents cap f).map flush_item_out).flatten := by
  show (if f.nItems = cap then LOG_FIFO_FULL_MSG else []) ++
    (_log_flush_loop cap f.nItems f).1 = _
  rw [_log_flush_loop_spec hcap f.nItems f hwf rfl]

/-- C7: if a run of puts from a reset FIFO fills it to capacity and at least
one further put occurs before the drain, `_log_flush` emits the overflow
diagnostic exactly once, before any event text, then drains exactly the
`capacity` retained events in enqueue order — every dropped event (the
`take` excess) is absent; and whenever the FIFO is found not completely
full, no diagnostic is emitted. -/
theorem log_flush_overflow_diagnostic (cap k : Nat) (hcap : cap = 2 ^ k)
    (L : List log_fifo_item_t) (hlen : cap < L.length) (f0 : log_fifo_t)
    (b : Bool) :
    (_log_flush cap b (log_fifo_putList cap L (log_fifo_reset f0))).1 =
      LOG_FIFO_FULL_MSG ++ ((L.take cap).map flush_item_out).flatten ∧
    (∀ (g : log_fifo_t) (b' : Bool), log_fifo_wf cap g → g.nItems ≠ cap →
      (_log_flush cap b' g).1 =
        ((log_fifo_contents cap g).map flush_item_out).flatten) := by
  constructor
  · have hpos : 0 < cap := hcap ▸ pow_pos (by norm_num) k
    have hwf0 := log_fifo_wf_reset hpos f0
    obtain ⟨hwf1, hc1⟩ :=
      log_fifo_putList_spec hcap L (log_fifo_reset f0) hwf0
    rw [log_fifo_contents_reset] at hc1
    have hn0 : (log_fifo_reset f0).nItems = 0 := rfl
    rw [hn0, Nat.sub_zero, List.nil_append] at hc1
    have hitems : (log_fifo_putList cap L (log_fifo_reset f0)).nItems =
        cap := by
      rw [← log_fifo_contents_length cap, hc1, List.length_take]
      omega
    rw [_log_flush_spec hcap b _ hwf1, hitems, if_pos rfl, hc1]
  · intro g b' hwfg hng
    rw [_log_flush_spec hcap b' g hwfg, if_neg hng, List.nil_append]

/-- C7 witness: capacity 2, three queued char items — the drain emits the
diagnostic once followed by the two retained items; the third is absent. -/
theorem log_flush_overflow_diagnostic_witness :
    (2 = 2 ^ 1 ∧
      2 < ([{ type := log_data_type._LOG_CHAR, chr := [65, 0, 0, 0], nChars := 1 },
            { type := log_data_type._LOG_CHAR, chr := [66, 0, 0, 0], nChars := 1 },
            { type := log_data_type._LOG_CHAR, chr := [67, 0, 0, 0], nChars := 1 }] :
              List log_fifo_item_t).length) ∧
    (_log_flush 2 false
        (log_fifo_putList 2
          [{ type := log_data_type._LOG_CHAR, chr := [65, 0, 0, 0], nChars := 1 },
           { type := log_data_type._LOG_CHAR, chr := [66, 0, 0, 0], nChars := 1 },
           { type := log_data_type._LOG_CHAR, chr := [67, 0, 0, 0], nChars := 1 }]
          (log_fifo_reset
            { buffer := fun _ => { type := log_data_type._LOG_CHAR },
              wrIdx := 0, rdIdx := 0, nItems := 0 }))).1 =
      LOG_FIFO_FULL_MSG ++
        ((([{ type := log_data_type._LOG_CHAR, chr := [65, 0, 0, 0], nChars := 1 },
            { type := log_data_type._LOG_CHAR, chr := [66, 0, 0, 0], nChars := 1 },
            { type := log_data_type._LOG_CHAR, chr := [67, 0, 0, 0], nChars := 1 }] :
              List log_fifo_item_t).take 2).map flush_item_out).flatten :=
  ⟨⟨by decide, by decide⟩,
    (log_flush_overflow_diagnostic 2 1 (by decide) _ (by decide)
      { buffer := fun _ => { type := log_data_type._LOG_CHAR },
        wrIdx := 0, rdIdx := 0, nItems := 0 } false).1⟩

/-! ## Array logging -/

theorem _log_array_loop_eq (cap : Nat) (mem : Nat → Nat) (w : Nat)
    (ty : log_data_type) (sep : Nat) :
    ∀ (n offset : Nat) (f : log_fifo_t),
      _log_array_loop cap mem offset w ty sep n f =
        log_fifo_putList cap (_log_array_items mem offset w ty sep n) f := by
  intro n
  induction n with
  | zero => intro offset f; rfl
  | succ m ih =>
    intro offset f
    by_cases h : m = 0
    · subst h
      rfl
    · obtain ⟨m', rfl⟩ : ∃ m', m = m' + 1 := ⟨m - 1, by omega⟩
      show _log_array_loop cap mem (offset + w) w ty sep (m' + 1)
          (_log_char cap sep (_log_var cap (readLE mem offset w) w ty f)) = _
      rw [ih (offset + w)]
      rfl

theorem _log_array_items_length (mem : Nat → Nat) (w : Nat)
    (ty : log_data_type) (sep : Nat) :
    ∀ (n offset : Nat),
      (_log_array_items mem offset w ty sep n).length = 2 * n - 1 := by
  intro n
  induction n with
  | zero => intro offset; rfl
  | succ m ih =>
    intro offset
    by_cases h : m = 0
    · subst h
      rfl
    · obtain ⟨m', rfl⟩ : ∃ m', m = m' + 1 := ⟨m - 1, by omega⟩
      show (({ type := ty, uData := readLE mem offset w, nBytes := w } :
          log_fifo_item_t) ::
        ({ type := log_data_type._LOG_CHAR, chr := [sep, 0, 0, 0],
           nChars := 1 } : log_fifo_item_t) ::
        _log_array_items mem (offset + w) w ty sep (m' + 1)).length =
        2 * (m' + 1 + 1) - 1
      rw [List.length_cons, List.length_cons, ih (offset + w)]
      omega

theorem _log_array_items_getD_even (mem : Nat → Nat) (w : Nat)
    (ty : log_data_type) (sep : Nat) :
    ∀ (i n offset : Nat), i < n →
      (_log_array_items mem offset w ty sep n).getD (2 * i)
          { type := log_data_type._LOG_CHAR } =
        { type := ty, uData := readLE mem (offset + i * w) w,
          nBytes := w } := by
  intro i
  induction i with
  | zero =>
    intro n offset hn
    obtain ⟨m, rfl⟩ : ∃ m, n = m + 1 := ⟨n - 1, by omega⟩
    show (_log_array_items mem offset w ty sep (m + 1)).getD 0 _ = _
    have hzw : offset + 0 * w = offset := by omega
    rw [hzw]
    by_cases h : m = 0
    · subst h; rfl
    · obtain ⟨m', rfl⟩ : ∃ m', m = m' + 1 := ⟨m - 1, by omega⟩
      rfl
  | succ j ih =>
    intro n offset hn
    obtain ⟨m, rfl⟩ : ∃ m, n = m + 1 := ⟨n - 1, by omega⟩
    have hm : j < m := by omega
    obtain ⟨m', rfl⟩ : ∃ m', m = m' + 1 := ⟨m - 1, by omega⟩
    have hsplit : _log_array_items mem offset w ty sep (m' + 1 + 1) =
        ({ type := ty, uData := readLE mem offset w, nBytes := w } :
            log_fifo_item_t) ::
          ({ type := log_data_type._LOG_CHAR, chr := [sep, 0, 0, 0],
             nChars := 1 } : log_fifo_item_t) ::
          _log_array_items mem (offset + w) w ty sep (m' + 1) := rfl
    have hidx : 2 * (j + 1) = 2 * j + 1 + 1 := by omega
    rw [hsplit, hidx, List.getD_cons_succ, List.getD_cons_succ,
      ih (m' + 1) (offset + w) hm]
    have harg : offset + w + j * w = offset + (j + 1) * w := by ring
    rw [harg]

theorem _log_array_items_getD_odd (mem : Nat → Nat) (w : Nat)
    (ty : log_data_type) (sep : Nat) :
    ∀ (i n offset : Nat), i + 1 < n →
      (_log_array_items mem offset w ty sep n).getD (2 * i + 1)
          { type := log_data_type._LOG_CHAR } =
        { type := log_data_type._LOG_CHAR, chr := [sep, 0, 0, 0],
          nChars := 1 } := by
  intro i
  induction i with
  | zero =>
    intro n offset hn
    obtain ⟨m, rfl⟩ : ∃ m, n = m + 1 := ⟨n - 1, by omega⟩
    obtain ⟨m', rfl⟩ : ∃ m', m = m' + 1 := ⟨m - 1, by omega⟩
    rfl
  | succ j ih =>
    intro n offset hn
    obtain ⟨m, rfl⟩ : ∃ m, n = m + 1 := ⟨n - 1, by omega⟩
    have hm : j + 1 < m := by omega
    obtain ⟨m', rfl⟩ : ∃ m', m = m' + 1 := ⟨m - 1, by omega⟩
    have hsplit : _log_array_items mem offset w ty sep (m' + 1 + 1) =
        ({ type := ty, uData := readLE mem offset w, nBytes := w } :
            log_fifo_item_t) ::
          ({ type := log_data_type._LOG_CHAR, chr := [sep, 0, 0, 0],
             nChars := 1 } : log_fifo_item_t) ::
          _log_array_items mem (offset + w) w ty sep (m' + 1) := rfl
    have hidx : 2 * (j + 1) + 1 = 2 * j + 1 + 1 + 1 := by omega
    rw [hsplit, hidx, List.getD_cons_succ, List.getD_cons_succ,
      ih (m' + 1) (offset + w) hm]

/-- C6: `_log_array` performs exactly the `put` sequence described by
`_log_array_items`: `itemCount` value items, the `i`-th carrying the
`itemWidth`-byte little-endian value at `basePointer + i*itemWidth`, with one
separator char item immediately after every element except the last (the
sequence has length `2*itemCount - 1` and ends in a value item); draining
the enqueued sequence for `[10, 20, 30]` with 2-byte elements and separator
`' '` yields exactly `"10 20 30"`. -/
theorem log_array_separator_law (cap : Nat) (mem : Nat → Nat) (w : Nat)
    (ty : log_data_type) (sep : Nat) (n : Nat) (hn : 0 < n)
    (f : log_fifo_t) :
    _log_array cap mem n w ty sep f =
      log_fifo_putList cap (_log_array_items mem 0 w ty sep n) f ∧
    (_log_array_items mem 0 w ty sep n).length = 2 * n - 1 ∧
    (∀ i, i < n →
      (_log_array_items mem 0 w ty sep n).getD (2 * i)
          { type := log_data_type._LOG_CHAR } =
        { type := ty, uData := readLE mem (i * w) w, nBytes := w }) ∧
    (∀ i, i + 1 < n →
      (_log_array_items mem 0 w ty sep n).getD (2 * i + 1)
          { type := log_data_type._LOG_CHAR } =
        { type := log_data_type._LOG_CHAR, chr := [sep, 0, 0, 0],
          nChars := 1 }) ∧
    (_log_flush 8 false
        (_log_array 8 (fun i => [10, 0, 20, 0, 30, 0].getD i 0) 3 2
          log_data_type._LOG_UINT_DEC 0x20
          (log_fifo_reset
            { buffer := fun _ => { type := log_data_type._LOG_CHAR },
              wrIdx := 0, rdIdx := 0, nItems := 0 }))).1 =
      [0x31, 0x30, 0x20, 0x32, 0x30, 0x20, 0x33, 0x30] := by
  refine ⟨_log_array_loop_eq cap mem w ty sep n 0 f,
    _log_array_items_length mem w ty sep n 0, ?_, ?_, by decide⟩
  · intro i hi
    have h := _log_array_items_getD_even mem w ty sep i n 0 hi
    rwa [Nat.zero_add] at h
  · intro i hi
    exact _log_array_items_getD_odd mem w ty sep i n 0 hi

/-- C6 witness: the array law instantiated on the `[10, 20, 30]` memory with
three 2-byte elements. -/
theorem log_array_separator_law_witness :
    0 < 3 ∧
    (_log_array 8 (fun i => [10, 0, 20, 0, 30, 0].getD i 0) 3 2
        log_data_type._LOG_UINT_DEC 0x20
        (log_fifo_reset
          { buffer := fun _ => { type := log_data_type._LOG_CHAR },
            wrIdx := 0, rdIdx := 0, nItems := 0 }) =
      log_fifo_putList 8
        (_log_array_items (fun i => [10, 0, 20, 0, 30, 0].getD i 0) 0 2
          log_data_type._LOG_UINT_DEC 0x20 3)
        (log_fifo_reset
          { buffer := fun _ => { type := log_data_type._LOG_CHAR },
            wrIdx := 0, rdIdx := 0, nItems := 0 })) ∧
    (_log_array_items (fun i => [10, 0, 20, 0, 30, 0].getD i 0) 0 2
        log_data_type._LOG_UINT_DEC 0x20 3).length = 2 * 3 - 1 :=
  ⟨by decide,
    (log_array_separator_law 8 (fun i => [10, 0, 20, 0, 30, 0].getD i 0) 2
      log_data_type._LOG_UINT_DEC 0x20 3 (by decide)
      (log_fifo_reset
        { buffer := fun _ => { type := log_data_type._LOG_CHAR },
          wrIdx := 0, rdIdx := 0, nItems := 0 })).1,
    (log_array_separator_law 8 (fun i => [10, 0, 20, 0, 30, 0].getD i 0) 2
      log_data_type._LOG_UINT_DEC 0x20 3 (by decide)
      (log_fifo_reset
        { buffer := fun _ => { type := log_data_type._LOG_CHAR },
          wrIdx := 0, rdIdx := 0, nItems := 0 })).2.1⟩

/-- C8: for every drained event of the colored `log.c` revision: a *None*
color tag emits no escape bytes at all; a *Default* tag emits exactly the
minimal reset sequence `ESC [ 0 m` once, immediately before the event's own
text; any other tag emits the full escape sequence — prefix `ESC [`, the
two-byte table code, suffix `'m'` — immediately before the event's text,
with nothing (in particular no reset) appended after the text. -/
theorem set_color_sentinel_law (item : LogV2.log_fifo_item_t) :
    (item.color = LogV2.log_color.LOG_COLOR_NONE →
      LogV2.log_flush_item_out item = LogV2.render item) ∧
    (item.color = LogV2.log_color.LOG_COLOR_DEFAULT →
      LogV2.log_flush_item_out item =
        [0x1B, 0x5B, 0x30, 0x6D] ++ LogV2.render item) ∧
    (item.color ≠ LogV2.log_color.LOG_COLOR_NONE →
      item.color ≠ LogV2.log_color.LOG_COLOR_DEFAULT →
      LogV2.log_flush_item_out item =
        [0x1B, 0x5B,
          (LogV2.ansi_colors.getD (LogV2.log_color_val item.color) (0, 0)).1,
          (LogV2.ansi_colors.getD (LogV2.log_color_val item.color) (0, 0)).2,
          0x6D] ++ LogV2.render item) := by
  refine ⟨?_, ?_, ?_⟩
  · intro h
    show LogV2.set_color item.color ++ LogV2.render item = LogV2.render item
    rw [h]
    rfl
  · intro h
    show LogV2.set_color item.color ++ LogV2.render item = _
    rw [h]
    rfl
  · intro h1 h2
    show LogV2.set_color item.color ++ LogV2.render item = _
    have hcode : LogV2.set_color item.color =
        [0x1B, 0x5B,
          (LogV2.ansi_colors.getD (LogV2.log_color_val item.color) (0, 0)).1,
          (LogV2.ansi_colors.getD (LogV2.log_color_val item.color) (0, 0)).2,
          0x6D] := by
      cases hc : item.color
      all_goals first
        | exact absurd hc h1
        | exact absurd hc h2
        | decide
    rw [hcode]

/-- C8 witness: a red-tagged char event — full escape sequence `ESC [ 3 1 m`
immediately before the text, nothing after it. -/
theorem set_color_sentinel_law_witness :
    (sample_red_char.color ≠ LogV2.log_color.LOG_COLOR_NONE ∧
      sample_red_char.color ≠ LogV2.log_color.LOG_COLOR_DEFAULT) ∧
    LogV2.log_flush_item_out sample_red_char =
      [0x1B, 0x5B,
        (LogV2.ansi_colors.getD
          (LogV2.log_color_val sample_red_char.color) (0, 0)).1,
        (LogV2.ansi_colors.getD
          (LogV2.log_color_val sample_red_char.color) (0, 0)).2,
        0x6D] ++ LogV2.render sample_red_char :=
  ⟨⟨by decide, by decide⟩,
    (set_color_sentinel_law sample_red_char).2.2 (by decide) (by decide)⟩
